import Mathlib

/-!
Shallow embedding of `src/supermarket.py` (Supermarket Management & Billing
System) and verification of its specification's claims.

Modelling conventions:
* SQLite `REAL` columns (prices, totals) are modelled as `ℚ`.
* SQLite `INTEGER` columns (quantities, ids) are modelled as `Int` / `Nat`;
  in particular a quantity is an `Int`, so that non-negativity is a genuine
  invariant rather than a typing artefact.
* Timestamps (`datetime.now().strftime(...)`) are opaque `String` parameters
  threaded into the operations.
* The sqlite tables `inventory`, `stock_history`, `sales` are lists in
  insertion (rowid) order; `AUTOINCREMENT` ids are explicit fields.
* The Tk UI is dropped; each UI callback becomes a function on the state it
  reads and writes.  `messagebox` error paths become explicit result
  constructors carrying exactly the data interpolated into the message.
-/

namespace Supermarket

/-- `LOW_STOCK_THRESHOLD = 10` (supermarket.py line 56). -/
def LOW_STOCK_THRESHOLD : Int := 10

/-- `DEFAULT_TAX_PERCENT = 0.0` (supermarket.py line 57). -/
def DEFAULT_TAX_PERCENT : ℚ := 0

/-- A row of the `inventory` table. -/
structure Product where
  id : Nat
  barcode : String
  name : String
  category : String
  price : ℚ
  quantity : Int
  created_at : String
deriving DecidableEq

/-- An element of `self.current_bill`: `{'barcode','name','price','quantity'}`. -/
structure BillLine where
  barcode : String
  name : String
  price : ℚ
  quantity : Int
deriving DecidableEq

/-- A row of the `stock_history` table. -/
structure StockHistoryEntry where
  item_id : Nat
  record_date : String
  quantity : Int
deriving DecidableEq

/-- A row of the `sales` table (`items_json` modelled as the list itself). -/
structure SaleRecord where
  sale_date : String
  items : List BillLine
  total_amount : ℚ
  customer_name : String
deriving DecidableEq

/-- The durable sqlite state: the three tables the checkout engine touches. -/
structure DB where
  inventory : List Product
  stock_history : List StockHistoryEntry
  sales : List SaleRecord
deriving DecidableEq

/-! ### String helpers

Python's `str.strip()` / `str.lower()` and SQLite's BINARY collation are
modelled directly on the character list (every string this program handles
is ASCII). -/

/-- Python's default stripped whitespace characters. -/
def isPySpace (c : Char) : Bool :=
  c = ' ' || c = '\t' || c = '\n' || c = '\x0d' || c = '\x0b' || c = '\x0c'

/-- Python `str.strip()`: drop leading and trailing whitespace. -/
def pyStrip (s : String) : String :=
  ⟨(((s.data.dropWhile isPySpace).reverse.dropWhile isPySpace).reverse)⟩

/-- Python `str.lower()` on one character (ASCII range). -/
def pyLowerChar (c : Char) : Char :=
  if 'A' ≤ c ∧ c ≤ 'Z' then Char.ofNat (c.toNat + 32) else c

/-- Python `str.lower()` (ASCII range, which covers every string of this
program). -/
def pyLower (s : String) : String := ⟨s.data.map pyLowerChar⟩

/-- `barcode.strip().lower()`, the normalisation `add_item_by_barcode`
applies to both sides of its comparison. -/
def normCode (s : String) : String := pyLower (pyStrip s)

/-- Code-point lexicographic comparison of character lists: SQLite's BINARY
collation on ASCII data. -/
def charListLe : List Char → List Char → Bool
  | [], _ => true
  | _ :: _, [] => false
  | a :: as, b :: bs => if a = b then charListLe as bs else decide (a < b)

/-- `ORDER BY name`'s comparison on the `name` column. -/
def nameLe (a b : String) : Bool := charListLe a.data b.data

/-! ### The inventory cache (`load_inventory_cache`)

`self.inventory` is `SELECT * FROM inventory ORDER BY name`; we model the
SQL sort as a stable insertion sort on the `name` column. -/

/-- Insert a product into a name-sorted list, before any row of equal name
already present later in the original order (stable). -/
def insertByName (p : Product) : List Product → List Product
  | [] => [p]
  | q :: rest => if nameLe p.name q.name then p :: q :: rest else q :: insertByName p rest

/-- Stable sort by `name`, modelling `ORDER BY name`. -/
def sortByName (l : List Product) : List Product := l.foldr insertByName []

/-! ### Bill builder (`add_item_by_barcode`, `edit_selected_qty`, totals) -/

/-- The lookup in `add_item_by_barcode`:
`next((i for i in self.inventory if i['barcode'].strip().lower() == barcode.strip().lower()), None)`. -/
def findItem (inv : List Product) (barcode : String) : Option Product :=
  inv.find? (fun i => normCode i.barcode == normCode barcode)

/-- The `for b in self.current_bill: ... break / else: append` loop of
`add_item_by_barcode`: increment the first line with the item's barcode,
else append a fresh quantity-1 line with the price pinned. -/
def addOrIncrement (item : Product) : List BillLine → List BillLine
  | [] => [⟨item.barcode, item.name, item.price, 1⟩]
  | b :: rest =>
      if b.barcode == item.barcode then { b with quantity := b.quantity + 1 } :: rest
      else b :: addOrIncrement item rest

/-- Result of `add_item_by_barcode`; error constructors carry the data shown
in the corresponding `messagebox` message. -/
inductive AddResult where
  | notFound (barcode : String)
  | outOfStock (name : String)
  | ok (newBill : List BillLine)
deriving DecidableEq

/-- `add_item_by_barcode` (supermarket.py lines 449–465).  Reads the
inventory *cache* (passed as `inv`) and the current bill. -/
def add_item_by_barcode (inv : List Product) (bill : List BillLine)
    (barcode : String) : AddResult :=
  match findItem inv barcode with
  | none => .notFound barcode
  | some item =>
      if item.quantity ≤ 0 then .outOfStock item.name
      else .ok (addOrIncrement item bill)

/-- `SELECT ... FROM inventory WHERE barcode=?` followed by `fetchone()`:
first row with exactly this barcode. -/
def findRow (inv : List Product) (code : String) : Option Product :=
  inv.find? (fun i => i.barcode == code)

/-- `avail = row['quantity'] if row else 0` in `edit_selected_qty`. -/
def availQty (inv : List Product) (code : String) : Int :=
  match findRow inv code with
  | some r => r.quantity
  | none => 0

/-- Result of `edit_selected_qty`; error constructors carry the data shown in
the corresponding `messagebox` message. -/
inductive EditResult where
  | noSelection
  | invalidQuantity
  | insufficientStock (avail : Int)
  | ok (newBill : List BillLine)
deriving DecidableEq

/-- `edit_selected_qty`/`save_qty` (supermarket.py lines 507–541): reject
`nq <= 0`, re-check the *live* database quantity, else write the new
quantity into the selected line. -/
def edit_selected_qty (inv : List Product) (bill : List BillLine)
    (idx : Nat) (nq : Int) : EditResult :=
  match bill[idx]? with
  | none => .noSelection
  | some item =>
      if nq ≤ 0 then .invalidQuantity
      else if availQty inv item.barcode < nq then .insufficientStock (availQty inv item.barcode)
      else .ok (bill.set idx { item with quantity := nq })

/-- The subtotal loop of `update_bill_display` / `process_checkout`:
`subtotal = sum(it['price'] * it['quantity'] for it in bill)`. -/
def billSubtotal (bill : List BillLine) : ℚ :=
  bill.foldl (fun acc it => acc + it.price * (it.quantity : ℚ)) 0

/-- `tax = subtotal * DEFAULT_TAX_PERCENT`. -/
def billTax (bill : List BillLine) : ℚ := billSubtotal bill * DEFAULT_TAX_PERCENT

/-- `total = subtotal + tax`. -/
def billTotal (bill : List BillLine) : ℚ := billSubtotal bill + billTax bill

/-- `totals()` of the spec: the three derived values `update_bill_display`
computes fresh from the current lines (supermarket.py lines 475–487). -/
def totals (bill : List BillLine) : ℚ × ℚ × ℚ :=
  (billSubtotal bill, billTax bill, billTotal bill)

/-! ### Checkout engine (`process_checkout`, supermarket.py lines 544–621) -/

/-- The validation loop: the first bill line whose barcode is absent from the
inventory or whose requested quantity exceeds the row's current quantity
(`if not row or row['quantity'] < b['quantity']`). -/
def checkoutValidate (inv : List Product) (bill : List BillLine) : Option BillLine :=
  bill.find? (fun b =>
    match findRow inv b.barcode with
    | none => true
    | some row => decide (row.quantity < b.quantity))

/-- `UPDATE inventory SET quantity = quantity - ? WHERE barcode=?`
(with a sign-flipped delta so restocks could reuse it). -/
def updateQty (inv : List Product) (code : String) (delta : Int) : List Product :=
  inv.map (fun p => if p.barcode == code then { p with quantity := p.quantity + delta } else p)

/-- One iteration of the deduct-and-record loop: update the row, re-read it,
and append a history entry holding the re-read (post-deduction) quantity. -/
def commitLine (now : String) (acc : List Product × List StockHistoryEntry)
    (b : BillLine) : List Product × List StockHistoryEntry :=
  let inv2 := updateQty acc.1 b.barcode (-b.quantity)
  match findRow inv2 b.barcode with
  | some rr => (inv2, acc.2 ++ [⟨rr.id, now, rr.quantity⟩])
  | none => (inv2, acc.2)

/-- The whole deduct-and-record loop over the bill, in bill order. -/
def commitAll (now : String) (inv : List Product) (hist : List StockHistoryEntry)
    (bill : List BillLine) : List Product × List StockHistoryEntry :=
  bill.foldl (commitLine now) (inv, hist)

/-- Result of `process_checkout`; `stockError` carries the name interpolated
into `"Not enough stock for {b['name']}"`, `ok` carries the low-stock
`(name, barcode, quantity)` triples collected after the commit. -/
inductive CheckoutResult where
  | emptyBill
  | stockError (name : String)
  | ok (lowItems : List (String × String × Int))
deriving DecidableEq

/-- `process_checkout` (supermarket.py lines 544–621).  Returns the outcome,
the database after the call, and the bill after the call (the success path
ends with `self.current_bill = []`).  On the empty-bill and stock-error
paths the python code performs only reads before returning, so the state
comes back unchanged. -/
def process_checkout (db : DB) (bill : List BillLine)
    (customerEntry now : String) : CheckoutResult × DB × List BillLine :=
  if bill = [] then (.emptyBill, db, bill)
  else
    match checkoutValidate db.inventory bill with
    | some b => (.stockError b.name, db, bill)
    | none =>
        let committed := commitAll now db.inventory db.stock_history bill
        let subtotal := billSubtotal bill
        let tax := subtotal * DEFAULT_TAX_PERCENT
        let total := subtotal + tax
        let customer := if pyStrip customerEntry = "" then "Walk-in" else pyStrip customerEntry
        let db2 : DB := ⟨committed.1, committed.2, db.sales ++ [⟨now, bill, total, customer⟩]⟩
        let lowItems := bill.filterMap (fun b =>
          match findRow committed.1 b.barcode with
          | some row =>
              if row.quantity < LOW_STOCK_THRESHOLD then some (row.name, row.barcode, row.quantity)
              else none
          | none => none)
        (.ok lowItems, db2, [])

/-- `populate_low_stock_warning` (supermarket.py lines 668–676): filter the
name-sorted inventory cache by `quantity < LOW_STOCK_THRESHOLD`. -/
def lowStockDashboard (inv : List Product) : List Product :=
  (sortByName inv).filter (fun it => decide (it.quantity < LOW_STOCK_THRESHOLD))

/-! ### Session state machine

One user session: the durable `DB` plus the in-memory `current_bill`.  The
inventory cache always equals `sortByName db.inventory` because every
database mutation is immediately followed by `load_inventory_cache`. -/

structure AppState where
  db : DB
  bill : List BillLine
deriving DecidableEq

/-- The cache `self.inventory` as a function of the database. -/
def cache (s : AppState) : List Product := sortByName s.db.inventory

/-- The user-driven operations of one session that touch the bill or the
database. -/
inductive Op where
  | addItem (barcode : String)
  | editQty (idx : Nat) (nq : Int)
  | removeItem (idx : Nat)
  | clearBill
  | checkout (customerEntry now : String)

/-- Effect of one UI operation on the session state; failed operations only
show a message box and leave the state unchanged. -/
def stepOp (s : AppState) : Op → AppState
  | .addItem code =>
      match add_item_by_barcode (cache s) s.bill code with
      | .ok newBill => { s with bill := newBill }
      | _ => s
  | .editQty idx nq =>
      match edit_selected_qty s.db.inventory s.bill idx nq with
      | .ok newBill => { s with bill := newBill }
      | _ => s
  | .removeItem idx => { s with bill := s.bill.eraseIdx idx }
  | .clearBill => { s with bill := [] }
  | .checkout cust now =>
      let r := process_checkout s.db s.bill cust now
      ⟨r.2.1, r.2.2⟩

/-- The seed rows of `seed_default_items` (supermarket.py lines 119–137). -/
def seedDefaults : List (String × String × String × ℚ × Int) :=
  [ ("MILK500", "Milk 500ml", "Dairy", 30, 20)
  , ("BREAD01", "Bread (400g)", "Bakery", 40, 20)
  , ("PARLEG1", "Parle-G (100g)", "Snacks", 10, 20)
  , ("SUGAR1", "Sugar 1kg", "Grocery", 45, 20)
  , ("RICE1KG", "Rice 1kg", "Grocery", 70, 20)
  , ("ATTA1KG", "Atta/Flour 1kg", "Grocery", 55, 20)
  , ("PANEER2", "Paneer 200g", "Dairy", 75, 20)
  , ("CHEESE1", "Cheese Slice Pack", "Dairy", 120, 20)
  , ("DAIRYM", "Dairy Milk 65g", "Snacks", 20, 20)
  , ("LAYS50", "Lays Chips 50g", "Snacks", 20, 20)
  , ("KITKAT", "KitKat 2-finger", "Snacks", 25, 20)
  , ("SHAMPOO_S", "Shampoo Sachet", "Personal Care", 5, 50)
  , ("SHAMPOO_B", "Shampoo Bottle 200ml", "Personal Care", 95, 20)
  , ("SOAP001", "Soap (Lux)", "Personal Care", 35, 20)
  , ("BAGPLST", "Plastic Carry Bag", "General", 5, 100) ]

/-- The freshly seeded `inventory` table, ids assigned by `AUTOINCREMENT`. -/
def initInventory (now : String) : List Product :=
  seedDefaults.enum.map (fun e =>
    ⟨e.1 + 1, e.2.1, e.2.2.1, e.2.2.2.1, e.2.2.2.2.1, e.2.2.2.2.2, now⟩)

/-- The initial history records written by `seed_default_items`: one entry
per seeded product carrying its seeded quantity. -/
def initHistory (now : String) : List StockHistoryEntry :=
  (initInventory now).map (fun p => ⟨p.id, now, p.quantity⟩)

/-- The session state right after `init_db` on a fresh database. -/
def initState (now : String) : AppState :=
  ⟨⟨initInventory now, initHistory now, []⟩, []⟩

/-- States reachable in one session from a freshly seeded database. -/
inductive Reachable : AppState → Prop where
  | init (now : String) : Reachable (initState now)
  | step (s : AppState) (op : Op) : Reachable s → Reachable (stepOp s op)

/-! ### Batch description of the commit loop

`commitAll` folds `commitLine` over the bill; under the reachable-bill
hypothesis that bill barcodes are distinct it equals a batch deduction plus
a batch history append, which is the shape the atomicity and history claims
talk about. -/

/-- Batch form of the deduction loop: every row loses the quantity of the
(unique) bill line carrying its barcode. -/
def deductAll (inv : List Product) (bill : List BillLine) : List Product :=
  inv.map (fun p =>
    match bill.find? (fun b => b.barcode == p.barcode) with
    | some b => { p with quantity := p.quantity - b.quantity }
    | none => p)

/-- Batch form of the history append: one entry per bill line whose barcode
resolves, carrying the post-deduction quantity. -/
def entriesFor (now : String) (inv : List Product) (bill : List BillLine) :
    List StockHistoryEntry :=
  bill.filterMap (fun b =>
    (findRow inv b.barcode).map (fun row => ⟨row.id, now, row.quantity - b.quantity⟩))

/-- The history rows of one product, in insertion (id) order:
`SELECT ... FROM stock_history WHERE item_id=? ORDER BY id`. -/
def histFor (hist : List StockHistoryEntry) (idv : Nat) : List StockHistoryEntry :=
  hist.filter (fun e => e.item_id == idv)

/-- The quantity of the most recent history row of one product. -/
def lastQty (hist : List StockHistoryEntry) (idv : Nat) : Option Int :=
  ((histFor hist idv).getLast?).map (fun e => e.quantity)

/-- Invariant of the durable state: unique barcodes and ids, non-negative
stock, the most recent history row of every product carries its current
quantity, and every product's history is non-increasing. -/
structure DBInv (db : DB) : Prop where
  barcodes_nodup : (db.inventory.map (fun p => p.barcode)).Nodup
  ids_nodup : (db.inventory.map (fun p => p.id)).Nodup
  qty_nonneg : ∀ p ∈ db.inventory, 0 ≤ p.quantity
  last_sync : ∀ p ∈ db.inventory, lastQty db.stock_history p.id = some p.quantity
  chain_ok : ∀ idv ∈ db.stock_history.map (fun e => e.item_id),
      List.Chain' (fun a b => b.quantity ≤ a.quantity) (histFor db.stock_history idv)

/-- Invariant of the whole session state: the database invariant plus the
reachable-bill facts — bill lines have pairwise distinct barcodes and
quantity at least 1. -/
structure StateInv (s : AppState) : Prop where
  inv_db : DBInv s.db
  bill_nodup : (s.bill.map (fun b => b.barcode)).Nodup
  bill_qty : ∀ b ∈ s.bill, 1 ≤ b.quantity

/-- The order the dashboard's rows come in: `ORDER BY name`. -/
def nameRel : Product → Product → Prop := fun a b => nameLe a.name b.name = true

/-- `addByCode` written exactly as §4.2 of the spec words it, for comparison
with the code's `add_item_by_barcode`: "fails with NotFound if no such code,
fails with OutOfStock if quantity ≤ 0; if a line for that code exists,
increment its quantity by 1, else append a new line with quantity 1 and
price pinned to the Product's current price". -/
def addByCode_spec (inv : List Product) (bill : List BillLine) (code : String) : AddResult :=
  match findItem inv code with
  | none => .notFound code
  | some item =>
      if item.quantity ≤ 0 then .outOfStock item.name
      else if bill.any (fun b => b.barcode == item.barcode) then
        .ok (bill.map (fun b =>
          if b.barcode == item.barcode then { b with quantity := b.quantity + 1 } else b))
      else .ok (bill ++ [⟨item.barcode, item.name, item.price, 1⟩])

/-! ### Concrete states and scenario statements used by the claims -/

/-- A session freshly seeded by `init_db`. -/
def seededState : AppState := initState "2025-01-01 09:00:00"

/-- Scenario E / C8: the same seeded session sells one `LAYS50` twice, each
time through a full checkout. -/
def traceE : AppState :=
  stepOp (stepOp (stepOp (stepOp seededState (.addItem "LAYS50")) (.checkout "" "t1"))
    (.addItem "LAYS50")) (.checkout "" "t2")

/-- Scenario A: three `addByCode "MILK500"` calls on the seeded session. -/
def stateA : AppState :=
  stepOp (stepOp (stepOp seededState (.addItem "MILK500")) (.addItem "MILK500"))
    (.addItem "MILK500")

/-- Scenario A of the spec: the bill holds one merged MILK500 line of
quantity 3 and the subtotal is 90.00. -/
def scenarioA : Prop :=
  stateA.bill = [⟨"MILK500", "Milk 500ml", 30, 3⟩] ∧ billSubtotal stateA.bill = 90

/-- Scenario B: catalog `BREAD01` qty 5, one BREAD01 bill line. -/
def sB : AppState :=
  ⟨⟨[⟨2, "BREAD01", "Bread (400g)", "Bakery", 40, 5, "t0"⟩], [⟨2, "t0", 5⟩], []⟩,
   [⟨"BREAD01", "Bread (400g)", 40, 2⟩]⟩

/-- Scenario B of the spec: `setQuantity` to 10 fails with the
insufficient-stock error carrying available=5, and neither the bill nor the
catalog changes. -/
def scenarioB : Prop :=
  edit_selected_qty sB.db.inventory sB.bill 0 10 = .insufficientStock 5 ∧
  stepOp sB (.editQty 0 10) = sB ∧
  availQty (stepOp sB (.editQty 0 10)).db.inventory "BREAD01" = 5

/-- Scenario C databases: `SUGAR1` at a given live stock. -/
def dbC (q : Int) : DB :=
  ⟨[⟨4, "SUGAR1", "Sugar 1kg", "Grocery", 45, q, "t0"⟩], [⟨4, "t0", q⟩], []⟩

/-- Scenario C bills: SUGAR1 at a given requested quantity. -/
def billC (n : Int) : List BillLine := [⟨"SUGAR1", "Sugar 1kg", 45, n⟩]

/-- Scenario C as the code behaves: with requested 2 and live stock 1 the
checkout aborts with the error naming `Sugar 1kg`, and neither the database
nor the bill changes. -/
def scenarioC : Prop :=
  checkoutValidate (dbC 1).inventory (billC 2) = some ⟨"SUGAR1", "Sugar 1kg", 45, 2⟩ ∧
  process_checkout (dbC 1) (billC 2) "" "t1" = (.stockError "Sugar 1kg", dbC 1, billC 2)

/-- Scenario D database: `LAYS50` qty 12. -/
def dbD : DB :=
  ⟨[⟨10, "LAYS50", "Lays Chips 50g", "Snacks", 20, 12, "t0"⟩], [⟨10, "t0", 12⟩], []⟩

/-- Scenario D bill: sell 5 of LAYS50 at the pinned price 20.00. -/
def billD : List BillLine := [⟨"LAYS50", "Lays Chips 50g", 20, 5⟩]

/-- Scenario D of the spec: the checkout reports LAYS50 low with remaining 7,
appends exactly `StockHistoryEntry{LAYS50, qty=7}`, and records one sale for
100.00 by the walk-in customer. -/
def scenarioD : Prop :=
  (process_checkout dbD billD "" "t1").1 = .ok [("Lays Chips 50g", "LAYS50", 7)] ∧
  (process_checkout dbD billD "" "t1").2.1.stock_history
    = [⟨10, "t0", 12⟩, ⟨10, "t1", 7⟩] ∧
  (process_checkout dbD billD "" "t1").2.1.sales.map
      (fun r => (r.sale_date, r.items, r.customer_name)) = [("t1", billD, "Walk-in")] ∧
  (process_checkout dbD billD "" "t1").2.1.sales.map (fun r => r.total_amount) = [100]

/-- Scenario E of the spec, on `traceE`: LAYS50's history chain is
`20, 19, 18` — strictly decreasing across the two checkouts, matching the
deductions in insertion order. -/
def scenarioE : Prop :=
  (histFor traceE.db.stock_history 10).map (fun e => e.quantity) = [20, 19, 18]

/-- C10's concrete session: one product with a single unit in stock. -/
def s10 : AppState :=
  ⟨⟨[⟨9, "DAIRYM", "Dairy Milk 65g", "Snacks", 20, 1, "t0"⟩], [⟨9, "t0", 1⟩], []⟩, []⟩

/-- Two `addByCode` calls on that session: the bill line reaches quantity 2
although only 1 unit is on hand. -/
def s10' : AppState := stepOp (stepOp s10 (.addItem "DAIRYM")) (.addItem "DAIRYM")

/-- C10's concrete content: the over-subscribed bill exists, and only
checkout rejects it, leaving the state unchanged. -/
def scenario10 : Prop :=
  s10'.bill = [⟨"DAIRYM", "Dairy Milk 65g", 20, 2⟩] ∧
  availQty s10'.db.inventory "DAIRYM" = 1 ∧
  (process_checkout s10'.db s10'.bill "" "t1").1 = .stockError "Dairy Milk 65g" ∧
  stepOp s10' (.checkout "" "t1") = s10'

/-- C7's concrete database: two products that will both drop below the
threshold, with `Sugar 1kg` added to the bill before `Bread (400g)`. -/
def dbG : DB :=
  ⟨[⟨4, "SUGAR1", "Sugar 1kg", "Grocery", 45, 11, "t0"⟩,
    ⟨2, "BREAD01", "Bread (400g)", "Bakery", 40, 11, "t0"⟩], [], []⟩

/-- C7's concrete bill, in add order: SUGAR1 first, BREAD01 second. -/
def billG : List BillLine :=
  [⟨"SUGAR1", "Sugar 1kg", 45, 2⟩, ⟨"BREAD01", "Bread (400g)", 40, 2⟩]

/-- C1's witness bill over the seeded catalog. -/
def billW : List BillLine := [⟨"MILK500", "Milk 500ml", 30, 2⟩]

/-- The validation loop succeeds exactly when every line's barcode resolves
to a row holding at least the requested quantity. -/
def validateOkIff (db : DB) (bill : List BillLine) : Prop :=
  checkoutValidate db.inventory bill = none ↔
    ∀ b ∈ bill, ∃ row, findRow db.inventory b.barcode = some row ∧
      b.quantity ≤ row.quantity

/-- When validation finds a failing line, checkout returns the stock error
for that line and leaves both the database and the bill untouched. -/
def checkoutAborts (db : DB) (bill : List BillLine) (cust now : String) : Prop :=
  ∀ b, checkoutValidate db.inventory bill = some b →
    process_checkout db bill cust now = (.stockError b.name, db, bill)

/-- When validation passes, checkout commits everything at once: every row
on the bill is deducted by its full line quantity, rows off the bill are
untouched, exactly one history entry per line is appended, and exactly one
sale record is appended; the caller's bill is cleared. -/
def checkoutCommits (db : DB) (bill : List BillLine) (cust now : String) : Prop :=
  checkoutValidate db.inventory bill = none →
    (∃ low, process_checkout db bill cust now =
      (.ok low,
       ⟨deductAll db.inventory bill,
        db.stock_history ++ entriesFor now db.inventory bill,
        db.sales ++ [⟨now, bill, billTotal bill,
          if pyStrip cust = "" then "Walk-in" else pyStrip cust⟩]⟩,
       [])) ∧
    (entriesFor now db.inventory bill).length = bill.length ∧
    (∀ b ∈ bill, ∀ row, findRow db.inventory b.barcode = some row →
      findRow (deductAll db.inventory bill) b.barcode
        = some { row with quantity := row.quantity - b.quantity }) ∧
    (∀ c, c ∉ bill.map (fun b => b.barcode) →
      findRow (deductAll db.inventory bill) c = findRow db.inventory c)

/-- Every inventory row's quantity is non-negative. -/
def allQtysNonneg (s : AppState) : Prop := ∀ p ∈ s.db.inventory, 0 ≤ p.quantity

/-- C4's guard conditions, at a selected line `item`: `n < 1` fails with the
invalid-quantity error, `n` above live stock fails with the
insufficient-stock error carrying the available quantity; both failures
leave the session state unchanged. -/
def setQuantityChecks (s : AppState) (idx : Nat) (nq : Int) (item : BillLine) : Prop :=
  (nq < 1 → edit_selected_qty s.db.inventory s.bill idx nq = .invalidQuantity ∧
    stepOp s (.editQty idx nq) = s) ∧
  (1 ≤ nq → availQty s.db.inventory item.barcode < nq →
    edit_selected_qty s.db.inventory s.bill idx nq
      = .insufficientStock (availQty s.db.inventory item.barcode) ∧
    stepOp s (.editQty idx nq) = s)

/-- On a validated checkout, the appended history rows record the
post-deduction quantity `row.quantity - b.quantity` of each sold line — not
a delta and not the pre-deduction value. -/
def historyPostDeduction (db : DB) (bill : List BillLine) (cust now : String) : Prop :=
  checkoutValidate db.inventory bill = none →
    (process_checkout db bill cust now).2.1.stock_history
      = db.stock_history
        ++ bill.filterMap (fun b =>
            (findRow db.inventory b.barcode).map
              (fun row => ⟨row.id, now, row.quantity - b.quantity⟩))

/-- The dashboard's low-stock list is exactly the below-threshold subset of
the catalog, in name order. -/
def dashboardSpec (inv : List Product) : Prop :=
  (∀ p, p ∈ lowStockDashboard inv ↔ p ∈ inv ∧ p.quantity < LOW_STOCK_THRESHOLD) ∧
  List.Pairwise nameRel (lowStockDashboard inv)

/-- The checkout engine's alert list contains exactly the sold lines whose
post-commit row is strictly below the threshold. -/
def checkoutLowSpec (db : DB) (bill : List BillLine) (cust now : String) : Prop :=
  ∀ low, (process_checkout db bill cust now).1 = .ok low →
    ∀ x, x ∈ low ↔ ∃ b ∈ bill, ∃ row,
      findRow (process_checkout db bill cust now).2.1.inventory b.barcode = some row ∧
      row.quantity < LOW_STOCK_THRESHOLD ∧ x = (row.name, row.barcode, row.quantity)

/-- Every product's stock-history quantities, in insertion order, never
increase. -/
def histNonincreasing (s : AppState) : Prop :=
  ∀ idv ∈ s.db.stock_history.map (fun e => e.item_id),
    List.Chain' (fun a b => b.quantity ≤ a.quantity) (histFor s.db.stock_history idv)

/-- `addByCode` succeeds regardless of the bill's current contents. -/
def addSucceeds (inv : List Product) (bill : List BillLine) (code : String) : Prop :=
  ∃ newBill, add_item_by_barcode inv bill code = .ok newBill

theorem findRow_mem {inv : List Product} {c : String} {r : Product}
    (h : findRow inv c = some r) : r ∈ inv ∧ r.barcode = c := by
  have hmem := List.mem_of_find?_eq_some h
  have hpred := List.find?_some h
  exact ⟨hmem, by simpa using hpred⟩

theorem findRow_updateQty (inv : List Product) (code : String) (d : Int) (c : String) :
    findRow (updateQty inv code d) c
      = (findRow inv c).map
          (fun p => if p.barcode == code then { p with quantity := p.quantity + d } else p) := by
  unfold findRow updateQty
  rw [List.find?_map]
  refine congrArg _ (congrArg (fun pr => List.find? pr inv) (funext fun p => ?_))
  by_cases h : p.barcode == code <;> simp [Function.comp, h]

theorem findRow_updateQty_self (inv : List Product) (code : String) (d : Int) :
    findRow (updateQty inv code d) code
      = (findRow inv code).map (fun p => { p with quantity := p.quantity + d }) := by
  rw [findRow_updateQty]
  cases hfr : findRow inv code with
  | none => rfl
  | some row =>
      have hb := (findRow_mem hfr).2
      simp [hb]

theorem findRow_updateQty_ne (inv : List Product) (code : String) (d : Int) {c : String}
    (h : c ≠ code) : findRow (updateQty inv code d) c = findRow inv c := by
  rw [findRow_updateQty]
  cases hfr : findRow inv c with
  | none => rfl
  | some row =>
      have hb := (findRow_mem hfr).2
      simp [hb, h]

theorem findRow_self_of_nodup {inv : List Product}
    (hnd : (inv.map (fun p => p.barcode)).Nodup) {p : Product} (hp : p ∈ inv) :
    findRow inv p.barcode = some p := by
  induction inv with
  | nil => simp at hp
  | cons q rest ih =>
      have hnd' : q.barcode ∉ rest.map (fun r => r.barcode) ∧
          (rest.map (fun r => r.barcode)).Nodup := by
        simpa [List.nodup_cons] using hnd
      rcases List.mem_cons.mp hp with rfl | hp'
      · simp [findRow]
      · have hq : ¬(q.barcode == p.barcode) = true := by
          simp only [beq_iff_eq]
          intro he
          exact hnd'.1 (he ▸ List.mem_map_of_mem _ hp')
        unfold findRow
        rw [List.find?_cons_of_neg]
        · exact ih hnd'.2 hp'
        · exact hq

theorem deductAll_nil (inv : List Product) : deductAll inv [] = inv := by
  simp [deductAll]

theorem entriesFor_cons (now : String) (inv : List Product) (b : BillLine)
    (rest : List BillLine) :
    entriesFor now inv (b :: rest) = entriesFor now inv [b] ++ entriesFor now inv rest := by
  simp only [entriesFor, List.filterMap_cons]
  cases findRow inv b.barcode <;> simp

theorem commitAll_cons (now : String) (inv : List Product)
    (hist : List StockHistoryEntry) (b : BillLine) (rest : List BillLine) :
    commitAll now inv hist (b :: rest)
      = commitAll now (commitLine now (inv, hist) b).1 (commitLine now (inv, hist) b).2 rest := by
  simp [commitAll]

/-- One loop iteration, described without the intermediate re-read: the
appended entry carries the post-deduction quantity of the updated row. -/
theorem commitLine_eq (now : String) (acc : List Product × List StockHistoryEntry)
    (b : BillLine) :
    commitLine now acc b
      = (updateQty acc.1 b.barcode (-b.quantity), acc.2 ++ entriesFor now acc.1 [b]) := by
  simp only [commitLine, findRow_updateQty_self]
  cases hfr : findRow acc.1 b.barcode with
  | none => simp [entriesFor, hfr]
  | some row => simp [entriesFor, hfr, sub_eq_add_neg]

/-- Under distinct bill barcodes, the sequential deduct-and-record loop is
the batch deduction together with the batch history append. -/
theorem commitAll_eq (now : String) :
    ∀ (bill : List BillLine) (inv : List Product) (hist : List StockHistoryEntry),
      (bill.map (fun b => b.barcode)).Nodup →
      commitAll now inv hist bill = (deductAll inv bill, hist ++ entriesFor now inv bill) := by
  intro bill
  induction bill with
  | nil => intro inv hist _; simp [commitAll, deductAll, entriesFor]
  | cons b rest ih =>
      intro inv hist h
      have hbcd : b.barcode ∉ rest.map (fun x => x.barcode) ∧
          (rest.map (fun x => x.barcode)).Nodup := by
        simpa [List.nodup_cons] using h
      have hb := hbcd.1
      have hrest := hbcd.2
      rw [commitAll_cons, commitLine_eq]
      rw [ih _ _ hrest]
      have hdeduct :
          deductAll (updateQty inv b.barcode (-b.quantity)) rest = deductAll inv (b :: rest) := by
        unfold deductAll updateQty
        rw [List.map_map]
        refine List.map_congr_left (fun p _ => ?_)
        simp only [Function.comp_apply]
        by_cases hp : p.barcode = b.barcode
        · have hrnone : rest.find? (fun x => x.barcode == p.barcode) = none := by
            rw [List.find?_eq_none]
            intro x hx
            simp only [beq_iff_eq]
            intro hxe
            exact hb (by rw [← hp, ← hxe]; exact List.mem_map_of_mem _ hx)
          rw [if_pos (by simpa using hp)]
          dsimp only
          rw [hrnone, List.find?_cons_of_pos]
          · dsimp only
            rw [sub_eq_add_neg]
          · simp [hp]
        · rw [if_neg (by simpa using hp)]
          rw [List.find?_cons_of_neg]
          simp only [beq_iff_eq]
          exact fun he => hp he.symm
      have hentries :
          entriesFor now (updateQty inv b.barcode (-b.quantity)) rest
            = entriesFor now inv rest := by
        unfold entriesFor
        refine List.filterMap_congr (fun x hx => ?_)
        have hxb : x.barcode ≠ b.barcode := by
          intro he
          exact hb (he ▸ List.mem_map_of_mem _ hx)
        rw [findRow_updateQty_ne _ _ _ hxb]
      rw [hdeduct, hentries, List.append_assoc, ← entriesFor_cons]

/-! ### Characterising the validation loop and the two checkout branches -/

theorem checkoutValidate_eq_none_iff (inv : List Product) (bill : List BillLine) :
    checkoutValidate inv bill = none ↔
      ∀ b ∈ bill, ∃ row, findRow inv b.barcode = some row ∧ b.quantity ≤ row.quantity := by
  unfold checkoutValidate
  rw [List.find?_eq_none]
  constructor
  · intro h b hb
    have hbf := h b hb
    cases hfr : findRow inv b.barcode with
    | none => rw [hfr] at hbf; simp at hbf
    | some row =>
        refine ⟨row, rfl, ?_⟩
        rw [hfr] at hbf
        simpa [not_lt] using hbf
  · intro h b hb
    obtain ⟨row, hrow, hle⟩ := h b hb
    simp only [hrow]
    simpa using not_lt.mpr hle

theorem checkoutValidate_some {inv : List Product} {bill : List BillLine} {b : BillLine}
    (h : checkoutValidate inv bill = some b) :
    b ∈ bill ∧
      (findRow inv b.barcode = none ∨
        ∃ row, findRow inv b.barcode = some row ∧ row.quantity < b.quantity) := by
  refine ⟨List.mem_of_find?_eq_some h, ?_⟩
  have hp := List.find?_some h
  cases hfr : findRow inv b.barcode with
  | none => exact Or.inl rfl
  | some row =>
      rw [hfr] at hp
      exact Or.inr ⟨row, rfl, by simpa using hp⟩

theorem process_checkout_empty (db : DB) (cust now : String) :
    process_checkout db [] cust now = (.emptyBill, db, []) := by
  simp [process_checkout]

theorem process_checkout_abort (db : DB) {bill : List BillLine} (cust now : String)
    {b : BillLine} (hne : bill ≠ [])
    (h : checkoutValidate db.inventory bill = some b) :
    process_checkout db bill cust now = (.stockError b.name, db, bill) := by
  unfold process_checkout
  rw [if_neg hne, h]

theorem process_checkout_commit (db : DB) {bill : List BillLine} (cust now : String)
    (hne : bill ≠ [])
    (hv : checkoutValidate db.inventory bill = none)
    (hnd : (bill.map (fun b => b.barcode)).Nodup) :
    process_checkout db bill cust now =
      (.ok (bill.filterMap (fun b =>
          match findRow (deductAll db.inventory bill) b.barcode with
          | some row =>
              if row.quantity < LOW_STOCK_THRESHOLD then some (row.name, row.barcode, row.quantity)
              else none
          | none => none)),
       ⟨deductAll db.inventory bill,
        db.stock_history ++ entriesFor now db.inventory bill,
        db.sales ++ [⟨now, bill, billSubtotal bill + billSubtotal bill * DEFAULT_TAX_PERCENT,
          if pyStrip cust = "" then "Walk-in" else pyStrip cust⟩]⟩,
       []) := by
  unfold process_checkout
  rw [if_neg hne, hv]
  simp only [commitAll_eq now bill db.inventory db.stock_history hnd]

/-! ### Pointwise description of the batch deduction -/

theorem deductAll_map_barcode (inv : List Product) (bill : List BillLine) :
    (deductAll inv bill).map (fun p => p.barcode) = inv.map (fun p => p.barcode) := by
  unfold deductAll
  rw [List.map_map]
  refine List.map_congr_left (fun p _ => ?_)
  simp only [Function.comp_apply]
  cases hf : bill.find? (fun b => b.barcode == p.barcode) <;> simp [hf]

theorem deductAll_map_id (inv : List Product) (bill : List BillLine) :
    (deductAll inv bill).map (fun p => p.id) = inv.map (fun p => p.id) := by
  unfold deductAll
  rw [List.map_map]
  refine List.map_congr_left (fun p _ => ?_)
  simp only [Function.comp_apply]
  cases hf : bill.find? (fun b => b.barcode == p.barcode) <;> simp [hf]

theorem findRow_deductAll (inv : List Product) (bill : List BillLine) (c : String) :
    findRow (deductAll inv bill) c
      = (findRow inv c).map (fun p =>
          match bill.find? (fun b => b.barcode == p.barcode) with
          | some b => { p with quantity := p.quantity - b.quantity }
          | none => p) := by
  unfold findRow deductAll
  rw [List.find?_map]
  refine congrArg _ (congrArg (fun pr => List.find? pr inv) (funext fun p => ?_))
  simp only [Function.comp_apply]
  cases hf : bill.find? (fun b => b.barcode == p.barcode) <;> simp [hf]

/-- In a duplicate-free bill, searching for a line's own barcode finds that
line. -/
theorem find?_line_self {bill : List BillLine}
    (hnd : (bill.map (fun b => b.barcode)).Nodup) {b : BillLine} (hb : b ∈ bill) :
    bill.find? (fun x => x.barcode == b.barcode) = some b := by
  induction bill with
  | nil => simp at hb
  | cons q rest ih =>
      have hnd' : q.barcode ∉ rest.map (fun r => r.barcode) ∧
          (rest.map (fun r => r.barcode)).Nodup := by
        simpa [List.nodup_cons] using hnd
      rcases List.mem_cons.mp hb with rfl | hb'
      · simp
      · have hq : ¬(q.barcode == b.barcode) = true := by
          simp only [beq_iff_eq]
          intro he
          exact hnd'.1 (he ▸ List.mem_map_of_mem _ hb')
        rw [List.find?_cons_of_neg]
        · exact ih hnd'.2 hb'
        · exact hq

/-- Rows whose barcode is on the bill are deducted by exactly their line's
quantity. -/
theorem findRow_deductAll_line {inv : List Product} {bill : List BillLine}
    (hnd : (bill.map (fun b => b.barcode)).Nodup) {b : BillLine} (hb : b ∈ bill)
    {row : Product} (hrow : findRow inv b.barcode = some row) :
    findRow (deductAll inv bill) b.barcode
      = some { row with quantity := row.quantity - b.quantity } := by
  rw [findRow_deductAll, hrow]
  have hbc : row.barcode = b.barcode := (findRow_mem hrow).2
  rw [Option.map_some']
  rw [hbc, find?_line_self hnd hb]

/-- Rows whose barcode is not on the bill are untouched. -/
theorem findRow_deductAll_not_mem {inv : List Product} {bill : List BillLine}
    {c : String} (hc : c ∉ bill.map (fun b => b.barcode)) :
    findRow (deductAll inv bill) c = findRow inv c := by
  rw [findRow_deductAll]
  cases hfr : findRow inv c with
  | none => rfl
  | some row =>
      have hbc : row.barcode = c := (findRow_mem hfr).2
      have hnone : bill.find? (fun b => b.barcode == row.barcode) = none := by
        rw [List.find?_eq_none]
        intro x hx
        simp only [beq_iff_eq]
        intro he
        exact hc (hbc ▸ he ▸ List.mem_map_of_mem _ hx)
      rw [Option.map_some', hnone]

/-- When every line resolves (which validation guarantees), the history
append has exactly one entry per line. -/
theorem entriesFor_length {now : String} {inv : List Product} {bill : List BillLine}
    (h : ∀ b ∈ bill, (findRow inv b.barcode).isSome) :
    (entriesFor now inv bill).length = bill.length := by
  induction bill with
  | nil => rfl
  | cons b rest ih =>
      have hb := h b (List.mem_cons_self _ _)
      cases hfr : findRow inv b.barcode with
      | none => rw [hfr] at hb; simp at hb
      | some row =>
          have htail := ih (fun x hx => h x (List.mem_cons_of_mem _ hx))
          simp [entriesFor, List.filterMap_cons, hfr] at htail ⊢
          exact htail

/-! ### Per-product history bookkeeping -/

theorem histFor_append (h1 h2 : List StockHistoryEntry) (idv : Nat) :
    histFor (h1 ++ h2) idv = histFor h1 idv ++ histFor h2 idv :=
  List.filter_append _ _

theorem mem_entriesFor {now : String} {inv : List Product} {bill : List BillLine}
    {e : StockHistoryEntry} :
    e ∈ entriesFor now inv bill ↔
      ∃ b ∈ bill, ∃ row, findRow inv b.barcode = some row ∧
        e = ⟨row.id, now, row.quantity - b.quantity⟩ := by
  unfold entriesFor
  rw [List.mem_filterMap]
  constructor
  · rintro ⟨b, hb, hfb⟩
    cases hfr : findRow inv b.barcode with
    | none => rw [hfr] at hfb; simp at hfb
    | some row =>
        rw [hfr] at hfb
        exact ⟨b, hb, row, hfr, by simpa using hfb.symm⟩
  · rintro ⟨b, hb, row, hrow, rfl⟩
    exact ⟨b, hb, by rw [hrow]; rfl⟩

/-- In a duplicate-free setting, the batch history append touches a product
either in exactly the one entry of its bill line, or not at all. -/
theorem histFor_entriesFor (now : String) {inv : List Product} {bill : List BillLine}
    (hinv : (inv.map (fun p => p.barcode)).Nodup)
    (hids : (inv.map (fun p => p.id)).Nodup)
    (hbnd : (bill.map (fun b => b.barcode)).Nodup)
    {p : Product} (hp : p ∈ inv) :
    histFor (entriesFor now inv bill) p.id
      = match bill.find? (fun b => b.barcode == p.barcode) with
        | some b => [⟨p.id, now, p.quantity - b.quantity⟩]
        | none => [] := by
  induction bill with
  | nil => simp [entriesFor, histFor]
  | cons b rest ih =>
      have hnd' : b.barcode ∉ rest.map (fun x => x.barcode) ∧
          (rest.map (fun x => x.barcode)).Nodup := by
        simpa [List.nodup_cons] using hbnd
      rw [entriesFor_cons, histFor_append]
      by_cases hbp : b.barcode = p.barcode
      · have hfr : findRow inv b.barcode = some p := by
          rw [hbp]; exact findRow_self_of_nodup hinv hp
        have hsing : entriesFor now inv [b] = [⟨p.id, now, p.quantity - b.quantity⟩] := by
          simp [entriesFor, hfr]
        have hrest_none : rest.find? (fun x => x.barcode == p.barcode) = none := by
          rw [List.find?_eq_none]
          intro x hx
          simp only [beq_iff_eq]
          intro he
          exact hnd'.1 ((he.trans hbp.symm) ▸ List.mem_map_of_mem _ hx)
        have hrest_hist : histFor (entriesFor now inv rest) p.id = [] := by
          rw [ih hnd'.2, hrest_none]
        rw [hsing, hrest_hist, List.find?_cons_of_pos]
        · simp [histFor]
        · simp [hbp]
      · have h1 : histFor (entriesFor now inv [b]) p.id = [] := by
          unfold histFor
          rw [List.filter_eq_nil_iff]
          intro e he
          obtain ⟨b', hb', row, hrow, rfl⟩ := mem_entriesFor.mp he
          have hb'b : b' = b := by simpa using hb'
          subst hb'b
          have hrowm := findRow_mem hrow
          simp only [beq_iff_eq]
          intro hide
          have hrp : row = p := List.inj_on_of_nodup_map hids hrowm.1 hp hide
          exact hbp (by rw [← hrowm.2, hrp])
        rw [h1, List.find?_cons_of_neg]
        · simpa using ih hnd'.2
        · simp [hbp]

/-- The batch history append never touches an id that belongs to no
inventory row. -/
theorem histFor_entriesFor_nil (now : String) {inv : List Product} {bill : List BillLine}
    {idv : Nat} (h : ∀ p ∈ inv, p.id ≠ idv) :
    histFor (entriesFor now inv bill) idv = [] := by
  unfold histFor
  rw [List.filter_eq_nil_iff]
  intro e he
  obtain ⟨b, hb, row, hrow, rfl⟩ := mem_entriesFor.mp he
  simp only [beq_iff_eq]
  exact h row (findRow_mem hrow).1

/-! ### The database invariant -/

theorem DBInv.chain_all {db : DB} (h : DBInv db) (idv : Nat) :
    List.Chain' (fun a b => b.quantity ≤ a.quantity) (histFor db.stock_history idv) := by
  by_cases hm : idv ∈ db.stock_history.map (fun e => e.item_id)
  · exact h.chain_ok idv hm
  · have hnil : histFor db.stock_history idv = [] := by
      unfold histFor
      rw [List.filter_eq_nil_iff]
      intro e he
      simp only [beq_iff_eq]
      exact fun hide => hm (hide ▸ List.mem_map_of_mem _ he)
    rw [hnil]
    exact List.chain'_nil

/-- A validated commit preserves the database invariant (for any sales
content, which the invariant does not constrain). -/
theorem DBInv_commit {db : DB} (hdb : DBInv db) {bill : List BillLine} (now : String)
    (hbnd : (bill.map (fun b => b.barcode)).Nodup)
    (hbq : ∀ b ∈ bill, 1 ≤ b.quantity)
    (hv : ∀ b ∈ bill, ∃ row, findRow db.inventory b.barcode = some row ∧
        b.quantity ≤ row.quantity)
    (sales2 : List SaleRecord) :
    DBInv ⟨deductAll db.inventory bill,
           db.stock_history ++ entriesFor now db.inventory bill, sales2⟩ := by
  refine ⟨?_, ?_, ?_, ?_, ?_⟩
  · show ((deductAll db.inventory bill).map (fun p => p.barcode)).Nodup
    rw [deductAll_map_barcode]
    exact hdb.barcodes_nodup
  · show ((deductAll db.inventory bill).map (fun p => p.id)).Nodup
    rw [deductAll_map_id]
    exact hdb.ids_nodup
  · intro p' hp'
    obtain ⟨p, hp, rfl⟩ := List.mem_map.mp hp'
    cases hf : bill.find? (fun b => b.barcode == p.barcode) with
    | none => simpa [hf] using hdb.qty_nonneg p hp
    | some b =>
        have hbmem := List.mem_of_find?_eq_some hf
        have hbbc : b.barcode = p.barcode := by simpa using List.find?_some hf
        obtain ⟨row, hrow, hle⟩ := hv b hbmem
        have hrowp : row = p := by
          rw [hbbc, findRow_self_of_nodup hdb.barcodes_nodup hp] at hrow
          exact (Option.some_injective _ hrow).symm
        subst hrowp
        simp only [hf]
        omega
  · intro p' hp'
    obtain ⟨p, hp, rfl⟩ := List.mem_map.mp hp'
    have hes := histFor_entriesFor now hdb.barcodes_nodup hdb.ids_nodup hbnd hp
    cases hf : bill.find? (fun b => b.barcode == p.barcode) with
    | none =>
        rw [hf] at hes
        simp only [hf]
        unfold lastQty
        rw [histFor_append, hes, List.append_nil]
        exact hdb.last_sync p hp
    | some b =>
        rw [hf] at hes
        simp only [hf]
        unfold lastQty
        rw [histFor_append, hes, List.getLast?_concat]
        rfl
  · intro idv _
    show List.Chain' _ (histFor (db.stock_history ++ entriesFor now db.inventory bill) idv)
    rw [histFor_append]
    by_cases hex : ∃ p ∈ db.inventory, p.id = idv
    · obtain ⟨p, hp, rfl⟩ := hex
      have hes := histFor_entriesFor now hdb.barcodes_nodup hdb.ids_nodup hbnd hp
      cases hf : bill.find? (fun b => b.barcode == p.barcode) with
      | none =>
          rw [hf] at hes
          rw [hes, List.append_nil]
          exact hdb.chain_all _
      | some b =>
          rw [hf] at hes
          rw [hes, List.chain'_append]
          refine ⟨hdb.chain_all _, List.chain'_singleton _, ?_⟩
          intro x hx y hy
          have hlast := hdb.last_sync p hp
          unfold lastQty at hlast
          rw [Option.mem_def] at hx
          rw [hx] at hlast
          have hxq : x.quantity = p.quantity := by simpa using hlast
          have hyq' : (⟨p.id, now, p.quantity - b.quantity⟩ : StockHistoryEntry) = y := by
            simpa using hy
          have hyq := hyq'.symm
          have hbq' := hbq b (List.mem_of_find?_eq_some hf)
          rw [hyq, hxq]
          show p.quantity - b.quantity ≤ p.quantity
          omega
    · push_neg at hex
      have hnil : histFor (entriesFor now db.inventory bill) idv = [] :=
        histFor_entriesFor_nil now hex
      rw [hnil, List.append_nil]
      exact hdb.chain_all idv

/-! ### Bill-side facts and the session invariant -/

theorem addOrIncrement_barcodes (item : Product) (bill : List BillLine) :
    (addOrIncrement item bill).map (fun b => b.barcode)
      = if bill.any (fun b => b.barcode == item.barcode) then bill.map (fun b => b.barcode)
        else bill.map (fun b => b.barcode) ++ [item.barcode] := by
  induction bill with
  | nil => simp [addOrIncrement]
  | cons b rest ih =>
      by_cases hb : b.barcode = item.barcode
      · simp [addOrIncrement, hb]
      · cases hr : rest.any (fun x => x.barcode == item.barcode) <;>
          simp [addOrIncrement, hb, hr, ih]

theorem addOrIncrement_nodup (item : Product) (bill : List BillLine)
    (h : (bill.map (fun b => b.barcode)).Nodup) :
    ((addOrIncrement item bill).map (fun b => b.barcode)).Nodup := by
  rw [addOrIncrement_barcodes]
  cases hany : bill.any (fun b => b.barcode == item.barcode) with
  | true => simpa using h
  | false =>
      rw [if_neg (by simp)]
      rw [List.nodup_append]
      refine ⟨h, List.nodup_singleton _, ?_⟩
      intro a ha hb
      have ha' : a = item.barcode := by simpa using hb
      subst ha'
      obtain ⟨b, hbm, hbe⟩ := List.mem_map.mp ha
      have hcontra : bill.any (fun x => x.barcode == item.barcode) = true :=
        List.any_eq_true.mpr ⟨b, hbm, by simpa using hbe⟩
      rw [hany] at hcontra
      exact Bool.false_ne_true hcontra

theorem addOrIncrement_qty (item : Product) (bill : List BillLine)
    (h : ∀ b ∈ bill, 1 ≤ b.quantity) :
    ∀ b ∈ addOrIncrement item bill, 1 ≤ b.quantity := by
  induction bill with
  | nil => intro b hb; simp [addOrIncrement] at hb; rw [hb]
  | cons q rest ih =>
      intro b hb
      simp only [addOrIncrement] at hb
      by_cases hq : (q.barcode == item.barcode) = true
      · rw [if_pos hq] at hb
        rcases List.mem_cons.mp hb with rfl | hb'
        · have := h q (List.mem_cons_self _ _)
          show (1 : Int) ≤ q.quantity + 1
          omega
        · exact h b (List.mem_cons_of_mem _ hb')
      · rw [if_neg hq] at hb
        rcases List.mem_cons.mp hb with rfl | hb'
        · exact h b (List.mem_cons_self _ _)
        · exact ih (fun x hx => h x (List.mem_cons_of_mem _ hx)) b hb'

theorem edit_ok_inversion {inv : List Product} {bill : List BillLine} {idx : Nat}
    {nq : Int} {newBill : List BillLine}
    (h : edit_selected_qty inv bill idx nq = .ok newBill) :
    ∃ item, bill[idx]? = some item ∧ 0 < nq ∧
      newBill = bill.set idx { item with quantity := nq } := by
  unfold edit_selected_qty at h
  split at h
  · exact absurd h (by simp)
  · rename_i item hi
    split at h
    · exact absurd h (by simp)
    · split at h
      · exact absurd h (by simp)
      · rename_i h0 h1
        exact ⟨item, hi, by omega, by simpa using h.symm⟩

theorem set_of_getElem? {α : Type _} :
    ∀ (l : List α) (n : Nat) (a : α), l[n]? = some a → l.set n a = l
  | [], n, a, h => by simp at h
  | x :: xs, 0, a, h => by
      simp only [List.getElem?_cons_zero, Option.some_inj] at h
      simp [List.set, h]
  | x :: xs, n + 1, a, h => by
      simp only [List.getElem?_cons_succ] at h
      simp [List.set, set_of_getElem? xs n a h]

theorem map_set_same {α β : Type _} (f : α → β) (l : List α) (n : Nat) (a a' : α)
    (hget : l[n]? = some a) (hf : f a' = f a) :
    (l.set n a').map f = l.map f := by
  rw [List.map_set, hf]
  exact set_of_getElem? _ _ _ (by rw [List.getElem?_map, hget]; rfl)

theorem StateInv_step {s : AppState} (h : StateInv s) (op : Op) :
    StateInv (stepOp s op) := by
  cases op with
  | addItem code =>
      cases hres : add_item_by_barcode (cache s) s.bill code with
      | ok newBill =>
          simp only [stepOp, hres]
          unfold add_item_by_barcode at hres
          split at hres
          · exact absurd hres (by simp)
          · rename_i item hfi
            split at hres
            · exact absurd hres (by simp)
            · have hnb : newBill = addOrIncrement item s.bill := by simpa using hres.symm
              subst hnb
              exact ⟨h.inv_db, addOrIncrement_nodup _ _ h.bill_nodup,
                addOrIncrement_qty _ _ h.bill_qty⟩
      | notFound bc => simpa only [stepOp, hres] using h
      | outOfStock nm => simpa only [stepOp, hres] using h
  | editQty idx nq =>
      cases hres : edit_selected_qty s.db.inventory s.bill idx nq with
      | ok newBill =>
          simp only [stepOp, hres]
          obtain ⟨item, hget, hnq, rfl⟩ := edit_ok_inversion hres
          refine ⟨h.inv_db, ?_, ?_⟩
          · show ((s.bill.set idx { item with quantity := nq }).map (fun b => b.barcode)).Nodup
            rw [map_set_same (fun b : BillLine => b.barcode) s.bill idx item
              { item with quantity := nq } hget rfl]
            exact h.bill_nodup
          · intro b hb
            rcases List.mem_or_eq_of_mem_set hb with hb' | rfl
            · exact h.bill_qty b hb'
            · simpa using hnq
      | noSelection => simpa only [stepOp, hres] using h
      | invalidQuantity => simpa only [stepOp, hres] using h
      | insufficientStock a => simpa only [stepOp, hres] using h
  | removeItem idx =>
      refine ⟨h.inv_db, ?_, ?_⟩
      · exact ((List.eraseIdx_sublist s.bill idx).map (fun b => b.barcode)).nodup h.bill_nodup
      · intro b hb
        exact h.bill_qty b ((List.eraseIdx_sublist s.bill idx).subset hb)
  | clearBill => exact ⟨h.inv_db, by simp [stepOp], by simp [stepOp]⟩
  | checkout cust now =>
      by_cases hne : s.bill = []
      · have : stepOp s (.checkout cust now) = ⟨s.db, s.bill⟩ := by
          simp [stepOp, hne, process_checkout_empty]
        rw [this]
        exact ⟨h.inv_db, h.bill_nodup, h.bill_qty⟩
      · cases hval : checkoutValidate s.db.inventory s.bill with
        | some b =>
            have : stepOp s (.checkout cust now) = ⟨s.db, s.bill⟩ := by
              simp [stepOp, process_checkout_abort s.db cust now hne hval]
            rw [this]
            exact ⟨h.inv_db, h.bill_nodup, h.bill_qty⟩
        | none =>
            have hv := (checkoutValidate_eq_none_iff _ _).mp hval
            simp only [stepOp, process_checkout_commit s.db cust now hne hval h.bill_nodup]
            exact ⟨DBInv_commit h.inv_db now h.bill_nodup h.bill_qty hv _, by simp, by simp⟩

/-! ### The seeded initial state satisfies the invariant -/

theorem lastQty_map_self {inv : List Product} (now : String)
    (hids : (inv.map (fun p => p.id)).Nodup) {p : Product} (hp : p ∈ inv) :
    lastQty (inv.map (fun q => (⟨q.id, now, q.quantity⟩ : StockHistoryEntry))) p.id
      = some p.quantity := by
  induction inv with
  | nil => simp at hp
  | cons q rest ih =>
      have hnd' : q.id ∉ rest.map (fun r => r.id) ∧ (rest.map (fun r => r.id)).Nodup := by
        simpa [List.nodup_cons] using hids
      rcases List.mem_cons.mp hp with rfl | hp'
      · have hrest : (rest.map (fun r => (⟨r.id, now, r.quantity⟩ : StockHistoryEntry))).filter
            (fun e => e.item_id == p.id) = [] := by
          rw [List.filter_eq_nil_iff]
          intro e he
          obtain ⟨r, hr, rfl⟩ := List.mem_map.mp he
          simp only [beq_iff_eq]
          exact fun hid => hnd'.1 (hid ▸ List.mem_map_of_mem _ hr)
        unfold lastQty histFor
        simp [List.filter_cons, hrest]
      · have hq : ¬((⟨q.id, now, q.quantity⟩ : StockHistoryEntry).item_id == p.id) = true := by
          simp only [beq_iff_eq]
          exact fun hid => hnd'.1 (hid ▸ List.mem_map_of_mem _ hp')
        unfold lastQty histFor at ih ⊢
        rw [List.map_cons, List.filter_cons_of_neg]
        · exact ih hnd'.2 hp'
        · exact hq

theorem chain_of_nodup_ids {hist : List StockHistoryEntry}
    (h : (hist.map (fun e => e.item_id)).Nodup) (idv : Nat) :
    List.Chain' (fun a b => b.quantity ≤ a.quantity) (histFor hist idv) := by
  induction hist with
  | nil => exact List.chain'_nil
  | cons e rest ih =>
      have hnd' : e.item_id ∉ rest.map (fun x => x.item_id) ∧
          (rest.map (fun x => x.item_id)).Nodup := by
        simpa [List.nodup_cons] using h
      unfold histFor
      by_cases he : e.item_id = idv
      · have hrest : rest.filter (fun x => x.item_id == idv) = [] := by
          rw [List.filter_eq_nil_iff]
          intro x hx
          simp only [beq_iff_eq]
          exact fun hid => hnd'.1 ((he ▸ hid : x.item_id = e.item_id) ▸ List.mem_map_of_mem _ hx)
        rw [List.filter_cons_of_pos (by simpa using he), hrest]
        exact List.chain'_singleton _
      · rw [List.filter_cons_of_neg (by simpa using he)]
        exact ih hnd'.2

theorem StateInv_init (now : String) : StateInv (initState now) := by
  have hbar : (initInventory now).map (fun p => p.barcode)
      = ["MILK500", "BREAD01", "PARLEG1", "SUGAR1", "RICE1KG", "ATTA1KG", "PANEER2",
         "CHEESE1", "DAIRYM", "LAYS50", "KITKAT", "SHAMPOO_S", "SHAMPOO_B", "SOAP001",
         "BAGPLST"] := rfl
  have hids : (initInventory now).map (fun p => p.id)
      = [1, 2, 3, 4, 5, 6, 7, 8, 9, 10, 11, 12, 13, 14, 15] := rfl
  have hqty : (initInventory now).map (fun p => p.quantity)
      = [20, 20, 20, 20, 20, 20, 20, 20, 20, 20, 20, 50, 20, 20, 100] := rfl
  have hidsnd : ((initInventory now).map (fun p => p.id)).Nodup := by rw [hids]; decide
  have hhist : initHistory now
      = (initInventory now).map (fun q => (⟨q.id, now, q.quantity⟩ : StockHistoryEntry)) := rfl
  have hhids : (initHistory now).map (fun e => e.item_id)
      = (initInventory now).map (fun p => p.id) := by
    rw [hhist, List.map_map]; rfl
  refine ⟨⟨?_, ?_, ?_, ?_, ?_⟩, by simp [initState], by simp [initState]⟩
  · show ((initInventory now).map (fun p => p.barcode)).Nodup
    rw [hbar]; decide
  · exact hidsnd
  · intro p hp
    have hp' : p ∈ initInventory now := hp
    have hm := List.mem_map_of_mem (fun p => p.quantity) hp'
    rw [hqty] at hm
    have hall : ∀ q ∈ ([20, 20, 20, 20, 20, 20, 20, 20, 20, 20, 20, 50, 20, 20, 100] :
        List Int), 0 ≤ q := by decide
    exact hall _ hm
  · intro p hp
    show lastQty (initHistory now) p.id = some p.quantity
    rw [hhist]
    exact lastQty_map_self now hidsnd hp
  · intro idv _
    show List.Chain' _ (histFor (initHistory now) idv)
    exact chain_of_nodup_ids (by rw [hhids]; exact hidsnd) idv

/-- Every state reachable in a session from the seeded database satisfies
the session invariant. -/
theorem reachable_StateInv {s : AppState} (h : Reachable s) : StateInv s := by
  induction h with
  | init now => exact StateInv_init now
  | step s op _ ih => exact StateInv_step ih op

/-! ### The cache sort: permutation and sortedness -/

theorem charListLe_total : ∀ as bs : List Char,
    charListLe as bs = true ∨ charListLe bs as = true
  | [], _ => Or.inl rfl
  | _ :: _, [] => Or.inr rfl
  | a :: as, b :: bs => by
      by_cases hab : a = b
      · subst hab
        rcases charListLe_total as bs with h | h
        · left; simpa [charListLe] using h
        · right; simpa [charListLe] using h
      · rcases lt_or_gt_of_ne hab with h | h
        · left; simp [charListLe, hab, h]
        · right; simp [charListLe, Ne.symm hab, h]

theorem charListLe_trans : ∀ as bs cs : List Char,
    charListLe as bs = true → charListLe bs cs = true → charListLe as cs = true
  | [], _, _, _, _ => rfl
  | _ :: _, [], _, h1, _ => by simp [charListLe] at h1
  | _ :: _, _ :: _, [], _, h2 => by simp [charListLe] at h2
  | a :: as, b :: bs, c :: cs, h1, h2 => by
      simp only [charListLe] at h1 h2 ⊢
      by_cases hab : a = b
      · subst hab
        by_cases hac : a = c
        · subst hac
          rw [if_pos rfl] at h1 h2 ⊢
          exact charListLe_trans as bs cs h1 h2
        · rw [if_pos rfl] at h1
          rw [if_neg hac] at h2 ⊢
          exact h2
      · have hab' : a < b := of_decide_eq_true (by rwa [if_neg hab] at h1)
        by_cases hbc : b = c
        · subst hbc
          rw [if_neg hab]
          exact decide_eq_true hab'
        · have hbc' : b < c := of_decide_eq_true (by rwa [if_neg hbc] at h2)
          have hac : a < c := lt_trans hab' hbc'
          rw [if_neg (ne_of_lt hac)]
          exact decide_eq_true hac

theorem nameLe_total (a b : String) : nameLe a b = true ∨ nameLe b a = true :=
  charListLe_total _ _

theorem nameLe_trans {a b c : String} (h1 : nameLe a b = true) (h2 : nameLe b c = true) :
    nameLe a c = true :=
  charListLe_trans _ _ _ h1 h2

theorem insertByName_perm (p : Product) (l : List Product) :
    List.Perm (insertByName p l) (p :: l) := by
  induction l with
  | nil => exact List.Perm.refl _
  | cons q rest ih =>
      unfold insertByName
      by_cases h : nameLe p.name q.name = true
      · rw [if_pos h]
      · rw [if_neg h]
        exact (ih.cons q).trans (List.Perm.swap p q rest)

theorem sortByName_perm (l : List Product) : List.Perm (sortByName l) l := by
  induction l with
  | nil => exact List.Perm.refl _
  | cons p rest ih => exact (insertByName_perm p (sortByName rest)).trans (ih.cons p)

theorem mem_sortByName {l : List Product} {p : Product} : p ∈ sortByName l ↔ p ∈ l :=
  (sortByName_perm l).mem_iff

theorem insertByName_sorted (p : Product) (l : List Product)
    (h : List.Pairwise nameRel l) : List.Pairwise nameRel (insertByName p l) := by
  induction l with
  | nil => simp [insertByName]
  | cons q rest ih =>
      rcases List.pairwise_cons.mp h with ⟨hq, hrest⟩
      unfold insertByName
      by_cases hle : nameLe p.name q.name = true
      · rw [if_pos hle]
        refine List.pairwise_cons.mpr ⟨?_, h⟩
        intro x hx
        rcases List.mem_cons.mp hx with rfl | hx'
        · exact hle
        · exact nameLe_trans hle (hq x hx')
      · rw [if_neg hle]
        have hqp : nameLe q.name p.name = true := (nameLe_total _ _).resolve_left hle
        refine List.pairwise_cons.mpr ⟨?_, ih hrest⟩
        intro x hx
        have hx' := (insertByName_perm p rest).mem_iff.mp hx
        rcases List.mem_cons.mp hx' with rfl | hx''
        · exact hqp
        · exact hq x hx''

theorem sortByName_sorted (l : List Product) : List.Pairwise nameRel (sortByName l) := by
  induction l with
  | nil => exact List.Pairwise.nil
  | cons p rest ih => exact insertByName_sorted p (sortByName rest) ih

theorem mem_lowStockDashboard (inv : List Product) (p : Product) :
    p ∈ lowStockDashboard inv ↔ p ∈ inv ∧ p.quantity < LOW_STOCK_THRESHOLD := by
  unfold lowStockDashboard
  rw [List.mem_filter, mem_sortByName]
  simp

theorem lowStockDashboard_sorted (inv : List Product) :
    List.Pairwise nameRel (lowStockDashboard inv) :=
  (sortByName_sorted inv).filter _

/-! ### The spec's description of `addByCode`, and its agreement with the code -/

theorem addOrIncrement_eq (item : Product) (bill : List BillLine)
    (hnd : (bill.map (fun b => b.barcode)).Nodup) :
    addOrIncrement item bill
      = if bill.any (fun b => b.barcode == item.barcode)
        then bill.map (fun b =>
          if b.barcode == item.barcode then { b with quantity := b.quantity + 1 } else b)
        else bill ++ [⟨item.barcode, item.name, item.price, 1⟩] := by
  induction bill with
  | nil => simp [addOrIncrement]
  | cons b rest ih =>
      have hnd' : b.barcode ∉ rest.map (fun x => x.barcode) ∧
          (rest.map (fun x => x.barcode)).Nodup := by
        simpa [List.nodup_cons] using hnd
      by_cases hb : (b.barcode == item.barcode) = true
      · have hbeq : b.barcode = item.barcode := by simpa using hb
        have hany : (b :: rest).any (fun x => x.barcode == item.barcode) = true := by
          simp [List.any_cons, hb]
        simp only [addOrIncrement]
        rw [if_pos hb, hany, if_pos rfl, List.map_cons, if_pos hb]
        have hrest : ∀ x ∈ rest,
            (if (x.barcode == item.barcode) = true
              then ({ x with quantity := x.quantity + 1 } : BillLine) else x) = x := by
          intro x hx
          rw [if_neg]
          simp only [beq_iff_eq]
          intro he
          exact hnd'.1 (by
            have : x.barcode = b.barcode := he.trans hbeq.symm
            exact this ▸ List.mem_map_of_mem _ hx)
        rw [List.map_congr_left hrest, List.map_id']
      · simp only [addOrIncrement]
        rw [if_neg hb]
        have hany : (b :: rest).any (fun x => x.barcode == item.barcode)
            = rest.any (fun x => x.barcode == item.barcode) := by
          simp [List.any_cons, hb]
        rw [hany]
        cases hr : rest.any (fun x => x.barcode == item.barcode) with
        | true =>
            rw [ih hnd'.2, hr, if_pos rfl, if_pos rfl, List.map_cons, if_neg hb]
        | false =>
            rw [ih hnd'.2, hr, if_neg (by simp), if_neg (by simp), List.cons_append]

/-- On duplicate-free bills the code's `add_item_by_barcode` is exactly the
spec's `addByCode`. -/
theorem add_item_eq_spec (inv : List Product) (bill : List BillLine) (code : String)
    (hnd : (bill.map (fun b => b.barcode)).Nodup) :
    add_item_by_barcode inv bill code = addByCode_spec inv bill code := by
  unfold add_item_by_barcode addByCode_spec
  cases hfi : findItem inv code with
  | none => rfl
  | some item =>
      dsimp only
      by_cases hq : item.quantity ≤ 0
      · rw [if_pos hq, if_pos hq]
      · rw [if_neg hq, if_neg hq, addOrIncrement_eq item bill hnd]
        cases hany : bill.any (fun b => b.barcode == item.barcode) <;> simp [hany]

/-- Membership in the low-stock list the checkout engine reports: exactly
the sold lines whose post-commit row is strictly below the threshold. -/
theorem mem_checkout_lowItems {inv2 : List Product} {bill : List BillLine}
    {x : String × String × Int} :
    (x ∈ bill.filterMap (fun b =>
        match findRow inv2 b.barcode with
        | some row =>
            if row.quantity < LOW_STOCK_THRESHOLD then some (row.name, row.barcode, row.quantity)
            else none
        | none => none))
      ↔ ∃ b ∈ bill, ∃ row, findRow inv2 b.barcode = some row ∧
          row.quantity < LOW_STOCK_THRESHOLD ∧ x = (row.name, row.barcode, row.quantity) := by
  rw [List.mem_filterMap]
  constructor
  · rintro ⟨b, hb, hfb⟩
    cases hfr : findRow inv2 b.barcode with
    | none => rw [hfr] at hfb; simp at hfb
    | some row =>
        rw [hfr] at hfb
        dsimp only at hfb
        by_cases hlt : row.quantity < LOW_STOCK_THRESHOLD
        · rw [if_pos hlt] at hfb
          exact ⟨b, hb, row, hfr, hlt, by simpa using hfb.symm⟩
        · rw [if_neg hlt] at hfb; simp at hfb
  · rintro ⟨b, hb, row, hrow, hlt, rfl⟩
    refine ⟨b, hb, ?_⟩
    rw [hrow]
    dsimp only
    rw [if_pos hlt]

/-! ### The claims -/

/-- `traceE` is reachable: it is built from the seeded state by session
operations only. -/
theorem traceE_reachable : Reachable traceE :=
  Reachable.step _ _ (Reachable.step _ _ (Reachable.step _ _
    (Reachable.step _ _ (Reachable.init "2025-01-01 09:00:00"))))

/-- C1: checkout is all-or-nothing.  For a non-empty bill (with the
reachable-bill property that line barcodes are distinct, and the schema
property that inventory barcodes are unique): validation succeeds exactly
when every line's scan code resolves with enough stock; if it fails on a
line, `process_checkout` returns the stock error and leaves the database
and the bill's lines untouched; if it succeeds, every line's full quantity
is deducted from its row, other rows are untouched, exactly one history
entry per line and exactly one sale record are appended, and the bill is
cleared. -/
theorem checkout_all_or_nothing (db : DB) (bill : List BillLine) (cust now : String)
    (hne : bill ≠ [])
    (hbill : (bill.map (fun b => b.barcode)).Nodup) :
    validateOkIff db bill ∧ checkoutAborts db bill cust now ∧
      checkoutCommits db bill cust now := by
  refine ⟨checkoutValidate_eq_none_iff _ _,
    fun b hb => process_checkout_abort db cust now hne hb, ?_⟩
  intro hv
  have hall := (checkoutValidate_eq_none_iff db.inventory bill).mp hv
  have hsome : ∀ b ∈ bill, (findRow db.inventory b.barcode).isSome := by
    intro b hb
    obtain ⟨row, hrow, _⟩ := hall b hb
    rw [hrow]
    rfl
  exact ⟨⟨_, process_checkout_commit db cust now hne hv hbill⟩,
    entriesFor_length hsome,
    fun b hb row hrow => findRow_deductAll_line hbill hb hrow,
    fun c hc => findRow_deductAll_not_mem hc⟩

/-- Witness for C1 on the seeded catalog with a two-unit MILK500 bill. -/
theorem checkout_all_or_nothing_witness :
    validateOkIff seededState.db billW ∧ checkoutAborts seededState.db billW "" "t1" ∧
      checkoutCommits seededState.db billW "" "t1" :=
  checkout_all_or_nothing seededState.db billW "" "t1" (by decide) (by decide)

/-- C2: in every state reachable by the session operations from the seeded
database, every inventory row's quantity is non-negative — checkout
validates each line against current stock before any deduction, and no
other operation writes the inventory. -/
theorem quantity_never_negative (s : AppState) (h : Reachable s) : allQtysNonneg s :=
  (reachable_StateInv h).inv_db.qty_nonneg

/-- Witness for C2 on a trace with two committed checkouts. -/
theorem quantity_never_negative_witness : allQtysNonneg traceE :=
  quantity_never_negative traceE traceE_reachable

/-- C3: on duplicate-free bills, `add_item_by_barcode` behaves exactly as
the spec's `addByCode` — `NotFound` when no catalog row matches the code,
`OutOfStock` when the matched row's quantity is ≤ 0, otherwise increment
the existing line for that code or append a fresh quantity-1 line with the
price pinned; and scenario A holds: three MILK500 adds yield one line of
quantity 3 with subtotal 90.00. -/
theorem addByCode_matches_spec (inv : List Product) (bill : List BillLine) (code : String)
    (hnd : (bill.map (fun b => b.barcode)).Nodup) :
    add_item_by_barcode inv bill code = addByCode_spec inv bill code ∧ scenarioA := by
  refine ⟨add_item_eq_spec inv bill code hnd, by decide, ?_⟩
  have h : stateA.bill = [⟨"MILK500", "Milk 500ml", 30, 3⟩] := by decide
  rw [h]
  show billSubtotal [⟨"MILK500", "Milk 500ml", 30, 3⟩] = 90
  norm_num [billSubtotal]

/-- Witness for C3: adding MILK500 to an empty bill on the seeded cache. -/
theorem addByCode_matches_spec_witness :
    add_item_by_barcode (cache seededState) [] "MILK500"
      = addByCode_spec (cache seededState) [] "MILK500" ∧ scenarioA :=
  addByCode_matches_spec (cache seededState) [] "MILK500" (by decide)

/-- C4: `setQuantity` fails with the invalid-quantity error for every
`n < 1` and with the insufficient-stock error (carrying the live available
quantity) for every `n` above the catalog's current stock for the line's
code; on either failure the bill and the catalog are unchanged.  Scenario B
holds: BREAD01 at catalog qty 5, requesting 10, fails with available=5 and
the catalog still reads 5. -/
theorem setQuantity_guards (s : AppState) (idx : Nat) (nq : Int) (item : BillLine)
    (hidx : s.bill[idx]? = some item) :
    setQuantityChecks s idx nq item ∧ scenarioB := by
  refine ⟨⟨?_, ?_⟩, by decide, by decide, by decide⟩
  · intro hlt
    have hres : edit_selected_qty s.db.inventory s.bill idx nq = .invalidQuantity := by
      simp only [edit_selected_qty, hidx]
      rw [if_pos (by omega)]
    exact ⟨hres, by simp only [stepOp, hres]⟩
  · intro h1 h2
    have hres : edit_selected_qty s.db.inventory s.bill idx nq
        = .insufficientStock (availQty s.db.inventory item.barcode) := by
      simp only [edit_selected_qty, hidx]
      rw [if_neg (by omega), if_pos h2]
    exact ⟨hres, by simp only [stepOp, hres]⟩

/-- Witness for C4 at scenario B's state. -/
theorem setQuantity_guards_witness :
    setQuantityChecks sB 0 10 ⟨"BREAD01", "Bread (400g)", 40, 2⟩ ∧ scenarioB :=
  setQuantity_guards sB 0 10 ⟨"BREAD01", "Bread (400g)", 40, 2⟩ (by decide)

/-- C5 counterexample: the claim says the checkout failure identifies the
offending scan code with requested and available quantities.  In the code
the error is `"Not enough stock for {name}"`: the failure value for
requested=2/available=1 equals the one for requested=3/available=0, and
equals the one for a product with a different scan code but the same name —
so the error carries neither the scan code nor either quantity. -/
theorem stockConflict_payload_cex :
    process_checkout (dbC 1) (billC 2) "" "t1" = (.stockError "Sugar 1kg", dbC 1, billC 2) ∧
    (process_checkout (dbC 1) (billC 2) "" "t1").1
      = (process_checkout (dbC 0) (billC 3) "" "t1").1 ∧
    (process_checkout (dbC 1) (billC 2) "" "t1").1
      = (process_checkout ⟨[⟨4, "XYZ99", "Sugar 1kg", "Grocery", 45, 1, "t0"⟩], [], []⟩
          [⟨"XYZ99", "Sugar 1kg", 45, 2⟩] "" "t1").1 :=
  ⟨by decide, by decide, by decide⟩

/-- C5, amended: when checkout validation fails, the error identifies the
offending line only by its product name (`"Not enough stock for {name}"`);
it carries neither the scan code nor the requested or available quantities.
For the scenario bill {SUGAR1, qty 2} with live stock 1, checkout fails
with the error naming `Sugar 1kg`, and no history or ledger rows are
written. -/
theorem stockConflict_name_only (db : DB) (bill : List BillLine) (cust now : String)
    (hne : bill ≠ []) :
    checkoutAborts db bill cust now ∧ scenarioC :=
  ⟨fun b hb => process_checkout_abort db cust now hne hb, by decide, by decide⟩

/-- Witness for the amended C5 at scenario C's state. -/
theorem stockConflict_name_only_witness :
    checkoutAborts (dbC 1) (billC 2) "" "t1" ∧ scenarioC :=
  stockConflict_name_only (dbC 1) (billC 2) "" "t1" (by decide)

/-- C6: on a validated commit, each appended history entry records the
post-deduction quantity `row.quantity - line.quantity` of its product — not
a delta and not the pre-deduction value.  Scenario D holds: selling 5 of
LAYS50 from 12 appends exactly `{LAYS50, qty 7}`, reports LAYS50 low with
remaining 7, and appends one sale with total 100.00. -/
theorem history_entry_is_post_deduction (db : DB) (bill : List BillLine)
    (cust now : String) (hne : bill ≠ [])
    (hbill : (bill.map (fun b => b.barcode)).Nodup) :
    historyPostDeduction db bill cust now ∧ scenarioD := by
  constructor
  · intro hv
    rw [process_checkout_commit db cust now hne hv hbill]
    rfl
  · refine ⟨by decide, by decide, by decide, ?_⟩
    have hc := @process_checkout_commit dbD billD "" "t1" (by decide) (by decide) (by decide)
    rw [hc]
    show ([] ++ [⟨"t1", billD, billSubtotal billD + billSubtotal billD * DEFAULT_TAX_PERCENT,
        if pyStrip "" = "" then "Walk-in" else pyStrip ""⟩] : List SaleRecord).map
        (fun r => r.total_amount) = [100]
    norm_num [billSubtotal, billD, DEFAULT_TAX_PERCENT]

/-- Witness for C6 at scenario D's state. -/
theorem history_entry_is_post_deduction_witness :
    historyPostDeduction dbD billD "" "t1" ∧ scenarioD :=
  history_entry_is_post_deduction dbD billD "" "t1" (by decide) (by decide)

/-- C7 counterexample: the claim says the low-stock set the checkout engine
reports is stable-sorted by name.  Selling SUGAR1 then BREAD01 (both ending
below the threshold) yields the list in bill order — `Sugar 1kg` before
`Bread (400g)` — which is not sorted by name. -/
theorem lowstock_order_cex :
    (process_checkout dbG billG "" "t1").1
      = .ok [("Sugar 1kg", "SUGAR1", 9), ("Bread (400g)", "BREAD01", 9)] ∧
    ¬ List.Pairwise (fun a b => nameLe a.1 b.1 = true)
      ([("Sugar 1kg", "SUGAR1", 9), ("Bread (400g)", "BREAD01", 9)] :
        List (String × String × Int)) :=
  ⟨by decide, by decide⟩

/-- C7, amended: the dashboard's detector returns exactly the subset of the
catalog with quantity strictly below the threshold, stable-sorted by name;
the checkout engine's detector returns exactly the sold lines whose
post-commit row is below the threshold, but in bill-line order, not sorted
by name. -/
theorem lowstock_detector_spec (inv : List Product) (db : DB) (bill : List BillLine)
    (cust now : String) (hne : bill ≠ [])
    (hbill : (bill.map (fun b => b.barcode)).Nodup) :
    dashboardSpec inv ∧ checkoutLowSpec db bill cust now := by
  refine ⟨⟨fun p => mem_lowStockDashboard inv p, lowStockDashboard_sorted inv⟩, ?_⟩
  intro low hlow x
  cases hval : checkoutValidate db.inventory bill with
  | some b =>
      rw [process_checkout_abort db cust now hne hval] at hlow
      exact absurd hlow (by simp)
  | none =>
      have hc := process_checkout_commit db cust now hne hval hbill
      rw [hc] at hlow
      dsimp only at hlow
      have hlow' : low = bill.filterMap (fun b =>
          match findRow (deductAll db.inventory bill) b.barcode with
          | some row =>
              if row.quantity < LOW_STOCK_THRESHOLD
              then some (row.name, row.barcode, row.quantity) else none
          | none => none) := by
        cases hlow
        rfl
      subst hlow'
      rw [hc]
      dsimp only
      exact mem_checkout_lowItems

/-- Witness for the amended C7 at the counterexample's state. -/
theorem lowstock_detector_spec_witness :
    dashboardSpec dbG.inventory ∧ checkoutLowSpec dbG billG "" "t1" :=
  lowstock_detector_spec dbG.inventory dbG billG "" "t1" (by decide) (by decide)

/-- C8: in every reachable state, every product's stock-history quantities,
in insertion (id) order, are non-increasing; and scenario E holds: two
sequential LAYS50 checkouts in one session chain the history `20, 19, 18`,
strictly decreasing with the deductions. -/
theorem stock_history_nonincreasing (s : AppState) (h : Reachable s) :
    histNonincreasing s ∧ scenarioE :=
  ⟨(reachable_StateInv h).inv_db.chain_ok, by unfold scenarioE; decide⟩

/-- Witness for C8 on the scenario-E trace itself. -/
theorem stock_history_nonincreasing_witness : histNonincreasing traceE ∧ scenarioE :=
  stock_history_nonincreasing traceE traceE_reachable

/-- C9: `totals()` is a pure function of the bill lines — the embedding of
`update_bill_display`'s computation takes only the lines and returns
`(subtotal, subtotal × taxRate, subtotal + tax)` with
subtotal = Σ price×qty; being a function, calling it twice on the same
lines yields identical results and nothing is mutated. -/
theorem totals_pure_formula (bill : List BillLine) :
    totals bill = (billSubtotal bill, billSubtotal bill * DEFAULT_TAX_PERCENT,
      billSubtotal bill + billSubtotal bill * DEFAULT_TAX_PERCENT) ∧
    billSubtotal bill = (bill.map (fun it => it.price * (it.quantity : ℚ))).sum := by
  constructor
  · rfl
  · have haux : ∀ (l : List BillLine) (a : ℚ),
        l.foldl (fun acc it => acc + it.price * (it.quantity : ℚ)) a
          = a + (l.map (fun it => it.price * (it.quantity : ℚ))).sum := by
      intro l
      induction l with
      | nil => intro a; simp
      | cons x xs ih => intro a; simp [List.foldl_cons, ih, add_assoc]
    simpa using haux bill 0

/-- C10: `addByCode` never checks the bill against available stock — for
any product found with quantity ≥ 1 it succeeds no matter what the bill
already contains, so a line's quantity can exceed the on-hand quantity; the
excess is rejected only later, by `setQuantity`'s live re-check or by
checkout validation.  Concretely: with 1 unit of DAIRYM on hand, two adds
produce a quantity-2 line, and only checkout rejects it. -/
theorem addByCode_ignores_stock_bound (inv : List Product) (bill : List BillLine)
    (code : String) (item : Product) (hfi : findItem inv code = some item)
    (hq : 0 < item.quantity) :
    addSucceeds inv bill code ∧ scenario10 := by
  refine ⟨⟨addOrIncrement item bill, ?_⟩, by decide, by decide, by decide, by decide⟩
  unfold add_item_by_barcode
  simp only [hfi]
  rw [if_neg (by omega)]

/-- Witness for C10 at its concrete session. -/
theorem addByCode_ignores_stock_bound_witness :
    addSucceeds (cache s10) [] "DAIRYM" ∧ scenario10 :=
  addByCode_ignores_stock_bound (cache s10) [] "DAIRYM"
    ⟨9, "DAIRYM", "Dairy Milk 65g", "Snacks", 20, 1, "t0"⟩ (by decide) (by decide)

end Supermarket
